import Mathlib

/-!
# Load monitor: store, broker and throttled subscription pipeline

A shallow embedding of `pkg/broker/broker.go` and `pkg/store/store.go`.

* Go maps are association lists with unique keys (`AList`); the order of the
  entries stands for one of the iteration orders Go may pick, and every
  statement below is phrased through `lookup` or membership.
* Go maps and channels are reference values.  Maps of the store live in a heap
  `mem` and are named by their index; channels of the broker live in `chans`
  and are named by their index.
* A call either returns, blocks for ever, or panics: `Outcome`.
* The goroutines started by `RegisterThrottled` and `Register` are step
  functions over what their `select` / `range` receives.  Time is an integer
  (nanoseconds); each step carries the reading of `time.Now()` it makes.
-/

namespace LoadMonitor

/-! ## Values, events, outcomes -/

/-- Dynamically typed values (`any`) as far as the program uses them. -/
inductive Val where
  | nil
  | int (n : Int)
  | int64 (n : Int)
  | str (s : String)
  deriving DecidableEq, Repr

/-- The struct `Event[any]` of store.go. -/
structure Event where
  Key : String
  Value : Val
  deriving DecidableEq, Repr

/-- What a call does: it returns with a new state, it never returns because it
waits on a channel for ever, or it panics (the state is the one at the panic). -/
inductive Outcome (σ : Type) where
  | returned (s : σ)
  | blocked
  | panicked (s : σ)
  deriving DecidableEq, Repr

/-- A Go map from strings to values. -/
abbrev GoMap := AList (fun _ : String => Val)

/-- The type `Predicate` of store.go. -/
abbrev Predicate := String → Bool

/-- The predicate `All()`. -/
def All : Predicate := fun _ => true

/-- The predicate `Select(prefix)`: `strings.HasPrefix(key, prefix)`. -/
def Select (pfx : String) : Predicate := fun key => pfx.data.isPrefixOf key.data

/-! ## broker.go -/

/-- The type `RegistrationToken` ([32]byte), as the number its bytes spell. -/
abbrev RegistrationToken := Nat

/-- A buffered channel: what is queued in it and whether it was closed. -/
structure Chan (T : Type) where
  buf : List T
  closed : Bool
  deriving DecidableEq, Repr

/-- The capacity given to every channel by `Register`: `make(chan T, 1000)`. -/
def chanCap : Nat := 1000

/-- The struct `Broker[T]`: `chans` holds every channel made so far (a channel
value is its index), `clients` is the map from token to channel. -/
structure Broker (T : Type) where
  chans : List (Chan T)
  clients : AList (fun _ : RegistrationToken => Nat)

/-- The constructor `NewBroker`. -/
def NewBroker {T : Type} : Broker T :=
  { chans := [], clients := ∅ }

/-- The method `Broker.Register`; `rnd` is what `newRegistrationToken` yields
(`none` when `rand.Read` fails).  Returns the token and the new channel. -/
def Broker.Register {T : Type} (b : Broker T) (rnd : Option RegistrationToken) :
    Broker T × Option (RegistrationToken × Nat) :=
  match rnd with
  | none => (b, none)
  | some key =>
    ({ chans := b.chans ++ [{ buf := [], closed := false }],
       clients := b.clients.insert key b.chans.length },
     some (key, b.chans.length))

/-- The statement `client <- msg`: a send on a nil channel or on a full channel
(nobody receives in a sequential run) blocks, a send on a closed channel
panics. -/
def chanSend {T : Type} (chans : List (Chan T)) (ch : Nat) (msg : T) :
    Outcome (List (Chan T)) :=
  match chans[ch]? with
  | none => .blocked
  | some c =>
    if c.closed then .panicked chans
    else if chanCap ≤ c.buf.length then .blocked
    else .returned (chans.set ch { c with buf := c.buf ++ [msg] })

/-- The loop `for _, client := range b.clients { client <- msg }`. -/
def broadcastLoop {T : Type} (chans : List (Chan T)) (msg : T) :
    List (Sigma (fun _ : RegistrationToken => Nat)) → Outcome (List (Chan T))
  | [] => .returned chans
  | e :: rest =>
    match chanSend chans e.2 msg with
    | .returned chans1 => broadcastLoop chans1 msg rest
    | .blocked => .blocked
    | .panicked chans1 => .panicked chans1

/-- The method `Broker.Broadcast`. -/
def Broker.Broadcast {T : Type} (b : Broker T) (msg : T) : Outcome (Broker T) :=
  match broadcastLoop b.chans msg b.clients.entries with
  | .returned chans1 => .returned { b with chans := chans1 }
  | .blocked => .blocked
  | .panicked chans1 => .panicked { b with chans := chans1 }

/-- The method `Broker.Cancel`: `close(ch)` panics on a nil or closed channel. -/
def Broker.Cancel {T : Type} (b : Broker T) (key : RegistrationToken) : Outcome (Broker T) :=
  match b.clients.lookup key with
  | none => .returned b
  | some ch =>
    match b.chans[ch]? with
    | none => .panicked b
    | some c =>
      if c.closed then .panicked b
      else .returned { chans := b.chans.set ch { c with closed := true },
                       clients := b.clients.erase key }

/-- One call on the bus. -/
inductive BusOp (T : Type) where
  | register (rnd : Option RegistrationToken)
  | broadcast (msg : T)
  | cancel (key : RegistrationToken)

/-- The effect of one call on the bus. -/
def Broker.apply {T : Type} (b : Broker T) : BusOp T → Outcome (Broker T)
  | .register rnd => .returned (b.Register rnd).1
  | .broadcast msg => b.Broadcast msg
  | .cancel key => b.Cancel key

/-- A sequential run of calls: the next call starts when the previous one has
returned; a call that blocks or panics ends the run with that outcome. -/
def Broker.run {T : Type} (b : Broker T) : List (BusOp T) → Outcome (Broker T)
  | [] => .returned b
  | op :: ops =>
    match b.apply op with
    | .returned b1 => b1.run ops
    | .blocked => .blocked
    | .panicked b1 => .panicked b1

/-- The messages a subscriber holding `key` is owed after the calls `ops`,
following the delivery contract: a registration under `key` opens an empty
inbox, every broadcast adds its message at the end, a cancel of `key` ends the
subscription.  Calls about other tokens play no part. -/
def inboxAfter {T : Type} (key : RegistrationToken) :
    Option (List T) → List (BusOp T) → Option (List T)
  | acc, [] => acc
  | acc, .register rnd :: ops =>
    inboxAfter key (if rnd = some key then some [] else acc) ops
  | acc, .broadcast msg :: ops => inboxAfter key (acc.map (fun l => l ++ [msg])) ops
  | acc, .cancel k :: ops => inboxAfter key (if k = key then none else acc) ops

/-! ## store.go: the store -/

/-- The struct `Store`.  `mem` is the heap of maps; `values` and
`defaultValues` are the addresses of the two maps the struct points to. -/
structure Store where
  mem : List GoMap
  values : Nat
  defaultValues : Nat
  broker : Broker Event

/-- The map at an address; a nil map reads as empty. -/
def deref (mem : List GoMap) (addr : Nat) : GoMap := mem.getD addr ∅

/-- The function `cloneMap`: a new map is allocated and filled entry by entry;
returns the heap and the address of the clone. -/
def cloneMap (mem : List GoMap) (original : Nat) : List GoMap × Nat :=
  (mem ++ [(deref mem original).entries.foldl (fun clone e => clone.insert e.1 e.2) ∅],
   mem.length)

/-- The constructor `NewStore`: the caller's map is kept by reference as
`defaultValues`, `values` is a clone. -/
def NewStore (mem : List GoMap) (defaultValues : Nat) : Store :=
  { mem := (cloneMap mem defaultValues).1
    values := (cloneMap mem defaultValues).2
    defaultValues := defaultValues
    broker := NewBroker }

/-- The method `Store.broadcast`. -/
def Store.broadcast (s : Store) (event : Event) : Outcome Store :=
  match s.broker.Broadcast event with
  | .returned b => .returned { s with broker := b }
  | .blocked => .blocked
  | .panicked b => .panicked { s with broker := b }

/-- The expression `s.values[key]`: the zero value `nil` for a missing key. -/
def Store.index (s : Store) (key : String) : Val :=
  ((deref s.mem s.values).lookup key).getD Val.nil

/-- The statement `s.values[key] = value`; an assignment to an entry of a nil
map panics. -/
def Store.assign (s : Store) (key : String) (value : Val) : Option Store :=
  match s.mem[s.values]? with
  | none => none
  | some m => some { s with mem := s.mem.set s.values (m.insert key value) }

/-- The method `Store.Set`. -/
def Store.Set (s : Store) (key : String) (value : Val) : Outcome Store :=
  match s.assign key value with
  | none => .panicked s
  | some s1 => s1.broadcast { Key := key, Value := value }

/-- The method `Store.Reduce`.  A reducer that fails (panics) returns `none`;
the panic leaves `Reduce` before the assignment. -/
def Store.Reduce (s : Store) (key : String) (reducer : Val → Option Val) : Outcome Store :=
  match reducer (s.index key) with
  | none => .panicked s
  | some value =>
    match s.assign key value with
    | none => .panicked s
    | some s1 => s1.broadcast { Key := key, Value := value }

/-- The method `Store.Get`. -/
def Store.Get (s : Store) (key : String) : Val := s.index key

/-- The method `Store.Entries`: returns `s.values`, the map itself. -/
def Store.Entries (s : Store) : Nat := s.values

/-- The loop of `Store.broadcastAll` over the entries still to visit. -/
def Store.broadcastEach (s : Store) : List (Sigma (fun _ : String => Val)) → Outcome Store
  | [] => .returned s
  | e :: rest =>
    match s.broadcast { Key := e.1, Value := e.2 } with
    | .returned s1 => s1.broadcastEach rest
    | .blocked => .blocked
    | .panicked s1 => .panicked s1

/-- The method `Store.broadcastAll`. -/
def Store.broadcastAll (s : Store) : Outcome Store :=
  s.broadcastEach (deref s.mem s.values).entries

/-- The method `Store.Reset`. -/
def Store.Reset (s : Store) : Outcome Store :=
  Store.broadcastAll { s with mem := (cloneMap s.mem s.defaultValues).1
                              values := (cloneMap s.mem s.defaultValues).2 }

/-- The method `Store.Cancel`. -/
def Store.Cancel (s : Store) (reg : RegistrationToken) : Outcome Store :=
  match s.broker.Cancel reg with
  | .returned b => .returned { s with broker := b }
  | .blocked => .blocked
  | .panicked b => .panicked { s with broker := b }

/-- One mutating call on the store. -/
inductive StoreOp where
  | set (key : String) (value : Val)
  | reduce (key : String) (reducer : Val → Option Val)
  | reset

/-- The effect of one mutating call. -/
def Store.apply (s : Store) : StoreOp → Outcome Store
  | .set key value => s.Set key value
  | .reduce key reducer => s.Reduce key reducer
  | .reset => s.Reset

/-- A sequence of calls on the store.  A call that panics has released the lock
(`defer s.mu.Unlock()`), so a caller that recovers goes on from the state at the
panic; a call that blocks ends the sequence (`none`). -/
def Store.run (s : Store) : List StoreOp → Option Store
  | [] => some s
  | op :: ops =>
    match s.apply op with
    | .returned s1 => s1.run ops
    | .blocked => none
    | .panicked s1 => s1.run ops

/-- The reducer built by `createListener`: `int64(n) + v.(int64)`; the type
assertion panics on any other value, the sum wraps at 64 bits. -/
def addBytes (n : Int) : Val → Option Val
  | .int64 v => some (.int64 ((n + v + 2 ^ 63) % 2 ^ 64 - 2 ^ 63))
  | _ => none

/-! ## store.go: the subscription goroutines -/

/-- The variables of the goroutine of `RegisterThrottled`, and what it has done
to `out`.  `timeout` is `none` for the nil channel, else the time at which the
timer of `time.After` fires.  `cache` is never nil (both assignments are
`make`).  `out` lists the batches sent with the time of the step that sent
them; the consumer is taken to be ready to receive. -/
structure Throttle where
  timeBarrier : Int
  timeout : Option Int
  cache : AList (fun _ : String => Event)
  out : List (Int × List Event)
  outClosed : Bool
  running : Bool

/-- What one round of the `select` receives: an event from `in` (with the
reading of `time.Now()` made while handling it), the end of `in`, or the timer
(with the reading of `time.Now()` made while handling it). -/
inductive Received where
  | recv (event : Event) (now : Int)
  | closed
  | timer (now : Int)

/-- The state of the goroutine when it starts, at time `now`. -/
def Throttle.start (now : Int) : Throttle :=
  { timeBarrier := now, timeout := none, cache := ∅, out := [], outClosed := false,
    running := true }

/-- One round of the `for { select { ... } }` loop of `RegisterThrottled`.
`none`: the round cannot happen (the goroutine has ended, no timer is armed, or
the timer is not due). -/
def Throttle.step (predicate : Predicate) (delay : Int) (s : Throttle) :
    Received → Option Throttle
  | .recv event now =>
    if !s.running then none
    else if predicate event.Key then
      if s.timeBarrier < now then
        some { s with out := s.out ++ [(now, [event])], timeBarrier := now + delay }
      else
        some { s with
          cache := s.cache.insert event.Key event
          timeout := match s.timeout with
            | none => some (now + max (s.timeBarrier - now) 0)
            | some deadline => some deadline }
    else some s
  | .closed =>
    if !s.running then none
    else some { s with running := false }
  | .timer now =>
    if !s.running then none
    else match s.timeout with
      | none => none
      | some deadline =>
        if now < deadline then none
        else some { s with
          out := s.out ++ [(now, s.cache.entries.map (fun e => e.2))]
          cache := ∅
          timeBarrier := now + delay
          timeout := none }

/-- Several rounds in a row. -/
def Throttle.run (predicate : Predicate) (delay : Int) (s : Throttle) :
    List Received → Option Throttle
  | [] => some s
  | i :: rest =>
    match s.step predicate delay i with
    | none => none
    | some s1 => Throttle.run predicate delay s1 rest

/-- The goroutine of `Register` and what it has done to `out`. -/
structure Forward where
  out : List Event
  outClosed : Bool
  running : Bool

/-- The state of the goroutine of `Register` when it starts. -/
def Forward.start : Forward :=
  { out := [], outClosed := false, running := true }

/-- One round of `for event := range in { ... }` followed, when `in` is closed
(`none`), by `close(out)`. -/
def Forward.step (predicate : Predicate) (s : Forward) : Option Event → Option Forward
  | some event =>
    if !s.running then none
    else if predicate event.Key then some { s with out := s.out ++ [event] }
    else some s
  | none =>
    if !s.running then none
    else some { s with outClosed := true, running := false }

/-- The time of a step. -/
def Received.time? : Received → Option Int
  | .recv _ now => some now
  | .closed => none
  | .timer now => some now

/-! ## Invariants and reference behaviour used by the statements -/

/-- The invariant of a store without subscribers whose defaults are the map at
`d` of the heap `mem`. -/
def StoreInv (mem : List GoMap) (d : Nat) (s : Store) : Prop :=
  s.defaultValues = d ∧ d < s.values ∧ s.values < s.mem.length ∧
    deref s.mem d = deref mem d ∧ s.broker.clients = ∅

/-- The last event for `key` in a list of events with their times. -/
def lastEventFor (key : String) (es : List (Event × Int)) : Option Event :=
  ((es.filter (fun x => x.1.Key = key)).getLast?).map (fun x => x.1)

/-- The `recv` rounds for a list of events with their times. -/
def recvAll (es : List (Event × Int)) : List Received :=
  es.map (fun x => Received.recv x.1 x.2)

/-- The value most recently delivered for `key` on the batch channel. -/
def lastDelivered (key : String) (out : List (Int × List Event)) : Option Val :=
  (((out.map (fun b => b.2)).flatten.filter (fun e => e.Key = key)).getLast?).map
    (fun e => e.Value)

/-- The value of the most recently received event for `key` that passes the
predicate. -/
def lastReceived (predicate : Predicate) (key : String) (inputs : List Received) : Option Val :=
  ((inputs.filterMap (fun i => match i with
      | .recv event _ => if predicate event.Key && event.Key = key then some event.Value else none
      | _ => none)).getLast?)

/-- Consecutive batches are at least `delay` apart. -/
def paced (delay : Int) : List (Int × List Event) → Bool
  | [] => true
  | [_] => true
  | a :: b :: rest => decide (a.1 + delay ≤ b.1) && paced delay (b :: rest)

/-- A list of times that never goes back. -/
def nondecreasing : List Int → Bool
  | [] => true
  | [_] => true
  | a :: b :: rest => decide (a ≤ b) && nondecreasing (b :: rest)

/-- The times of the rounds never go back. -/
def timesOrdered (inputs : List Received) : Bool :=
  nondecreasing (inputs.filterMap Received.time?)

/-- The state after a list of events that are all deferred. -/
def deferred (s : Throttle) (es : List (Event × Int)) : Throttle :=
  { s with
    cache := es.foldl (fun c x => c.insert x.1.Key x.1) s.cache
    timeout := if es = [] then s.timeout else some (s.timeout.getD s.timeBarrier) }

/-- Every entry of the cache sits under its own key. -/
def Keyed (c : AList (fun _ : String => Event)) : Prop :=
  ∀ k e, c.lookup k = some e → e.Key = k

/-- The rounds of a run with delay 100 started at time 0 in which an event is
handled after the barrier while the timer armed for an earlier event is due but
not yet handled. -/
def raceInputs : List Received :=
  [.recv { Key := "a", Value := .int 1 } 1, .recv { Key := "a", Value := .int 2 } 50,
   .recv { Key := "a", Value := .int 3 } 102, .timer 103]

/-- The invariant of the bus: every channel of the client table exists and is
open, and no channel sits under two tokens. -/
def BusInv {T : Type} (b : Broker T) : Prop :=
  (∀ key ch, b.clients.lookup key = some ch → ∃ c, b.chans[ch]? = some c ∧ c.closed = false) ∧
  (∀ k1 k2 ch, b.clients.lookup k1 = some ch → b.clients.lookup k2 = some ch → k1 = k2)

/-- What is queued in the channel registered under `key`, if any. -/
def inboxOf {T : Type} (b : Broker T) (key : RegistrationToken) : Option (List T) :=
  (b.clients.lookup key).bind (fun ch => (b.chans[ch]?).map (fun c => c.buf))

/-- A channel with one more message queued. -/
def Chan.push {T : Type} (c : Chan T) (msg : T) : Chan T :=
  { c with buf := c.buf ++ [msg] }

/-- The store of the defensive-snapshot example: one key `a` holding 1. -/
def sampleStore : Store :=
  NewStore [(AList.insert "a" (Val.int 1) ∅ : GoMap)] 0

/-- A run of the bus: a subscriber registers, a message is broadcast, the
subscriber cancels twice, a token never issued is cancelled, a second message
is broadcast. -/
def cancelTwice : List (BusOp Nat) :=
  [.register (some 7), .broadcast 1, .cancel 7, .cancel 7, .cancel 9, .broadcast 2]

/-- A run of the bus with two subscribers that register at different times. -/
def twoSubscribers : List (BusOp Nat) :=
  [.register (some 1), .broadcast 10, .register (some 2), .broadcast 20, .broadcast 30]

/-- Several rounds of the goroutine of `Register`, one for each event received
from `in`. -/
def Forward.run (predicate : Predicate) (s : Forward) : List Event → Option Forward
  | [] => some s
  | event :: rest =>
    match s.step predicate (some event) with
    | none => none
    | some s1 => Forward.run predicate s1 rest

/-- The store of the snapshot example after one subscriber has registered under
token 7. -/
def subscribedStore : Store :=
  { sampleStore with broker := (sampleStore.broker.Register (some 7)).1 }

/-- A reducer that always returns a value: it adds `n` to an `int` and starts
from `n` on anything else. -/
def addInt (n : Int) : Val → Val
  | .int v => .int (n + v)
  | _ => .int n

/-- The events of the filtering example. -/
def mixedEvents : List Event :=
  [{ Key := "bytes.read.count", Value := .int64 5 }, { Key := "session.count", Value := .int 1 },
   { Key := "bytes.write.count", Value := .int64 9 }]

/-! ## Lemmas on the store -/

theorem foldl_insert_lookup (l : List (Sigma (fun _ : String => Val))) (hl : l.NodupKeys)
    (acc : GoMap) (k : String) :
    (l.foldl (fun clone e => clone.insert e.1 e.2) acc).lookup k
      = (List.dlookup k l).orElse (fun _ => acc.lookup k) := by
  induction l generalizing acc with
  | nil => simp
  | cons e rest ih =>
    obtain ⟨a, b⟩ := e
    rw [List.nodupKeys_cons] at hl
    rw [List.foldl_cons, ih hl.2]
    by_cases hk : k = a
    · subst hk
      have : List.dlookup k rest = none := List.dlookup_eq_none.mpr hl.1
      simp [this, AList.lookup_insert]
    · rw [List.dlookup_cons_ne rest ⟨a, b⟩ hk, AList.lookup_insert_ne hk]

theorem cloneMap_lookup (mem : List GoMap) (original : Nat) (k : String) :
    (deref (cloneMap mem original).1 (cloneMap mem original).2).lookup k
      = (deref mem original).lookup k := by
  have h1 : deref (cloneMap mem original).1 (cloneMap mem original).2
      = (deref mem original).entries.foldl (fun clone e => clone.insert e.1 e.2) ∅ := by
    simp only [cloneMap]
    unfold deref
    rw [List.getD_append_right _ _ _ _ (le_refl _)]
    simp only [Nat.sub_self, List.getD_cons_zero]
  rw [h1, foldl_insert_lookup _ (deref mem original).nodupKeys]
  simp only [AList.lookup_empty]
  show _ = List.dlookup k (deref mem original).entries
  cases List.dlookup k (deref mem original).entries <;> rfl

theorem cloneMap_deref_old (mem : List GoMap) (original addr : Nat) (h : addr < mem.length) :
    deref (cloneMap mem original).1 addr = deref mem addr := by
  simp only [cloneMap, deref]
  rw [List.getD_append _ _ _ _ h]

theorem broadcast_no_clients (s : Store) (event : Event) (h : s.broker.clients = ∅) :
    s.broadcast event = .returned s := by
  obtain ⟨mem, v, dv, ⟨chans, clients⟩⟩ := s
  simp only at h
  subst h
  rfl

theorem broadcastEach_no_clients (s : Store) (h : s.broker.clients = ∅)
    (l : List (Sigma (fun _ : String => Val))) : s.broadcastEach l = .returned s := by
  induction l with
  | nil => rfl
  | cons e rest ih => simp [Store.broadcastEach, broadcast_no_clients s _ h, ih]

theorem storeInv_new (mem : List GoMap) (d : Nat) (hd : d < mem.length) :
    StoreInv mem d (NewStore mem d) := by
  refine ⟨rfl, ?_, ?_, ?_, rfl⟩
  · simpa [NewStore, cloneMap] using hd
  · simp [NewStore, cloneMap]
  · exact cloneMap_deref_old mem d d hd

theorem storeInv_assign (mem : List GoMap) (d : Nat) (s : Store) (h : StoreInv mem d s)
    (key : String) (value : Val) :
    ∃ s1, s.assign key value = some s1 ∧ StoreInv mem d s1 := by
  obtain ⟨h1, h2, h3, h4, h5⟩ := h
  have hv : s.mem[s.values]? = some s.mem[s.values] := List.getElem?_eq_getElem h3
  refine ⟨{ s with mem := s.mem.set s.values (s.mem[s.values].insert key value) },
    by simp only [Store.assign, hv], h1, h2, by simpa using h3, ?_, h5⟩
  rw [← h4]
  simp only [deref, List.getD_eq_getElem?_getD]
  rw [List.getElem?_set_ne (by omega)]

theorem storeInv_reset (mem : List GoMap) (d : Nat) (s : Store) (h : StoreInv mem d s) :
    ∃ s1, s.Reset = .returned s1 ∧ StoreInv mem d s1 ∧
      ∀ k, (deref s1.mem s1.values).lookup k = (deref mem d).lookup k := by
  obtain ⟨h1, h2, h3, h4, h5⟩ := h
  refine ⟨{ s with mem := (cloneMap s.mem s.defaultValues).1
                   values := (cloneMap s.mem s.defaultValues).2 },
    broadcastEach_no_clients { s with mem := (cloneMap s.mem s.defaultValues).1
                                      values := (cloneMap s.mem s.defaultValues).2 } h5 _,
    ⟨h1, ?_, ?_, ?_, h5⟩, ?_⟩
  · simp only [cloneMap]; omega
  · simp [cloneMap]
  · rw [← h4]; exact cloneMap_deref_old _ _ _ (by omega)
  · intro k
    rw [← h4, ← h1]
    exact cloneMap_lookup s.mem s.defaultValues k

theorem storeInv_apply (mem : List GoMap) (d : Nat) (s : Store) (h : StoreInv mem d s)
    (op : StoreOp) :
    ∃ s1, (s.apply op = .returned s1 ∨ s.apply op = .panicked s1) ∧ StoreInv mem d s1 := by
  cases op with
  | set key value =>
    obtain ⟨s1, e1, i1⟩ := storeInv_assign mem d s h key value
    exact ⟨s1, Or.inl (by simp [Store.apply, Store.Set, e1, broadcast_no_clients s1 _ i1.2.2.2.2]), i1⟩
  | reduce key reducer =>
    cases hr : reducer (s.index key) with
    | none => exact ⟨s, Or.inr (by simp [Store.apply, Store.Reduce, hr]), h⟩
    | some value =>
      obtain ⟨s1, e1, i1⟩ := storeInv_assign mem d s h key value
      exact ⟨s1, Or.inl (by simp [Store.apply, Store.Reduce, hr, e1,
        broadcast_no_clients s1 _ i1.2.2.2.2]), i1⟩
  | reset =>
    obtain ⟨s1, e1, i1, _⟩ := storeInv_reset mem d s h
    exact ⟨s1, Or.inl e1, i1⟩

theorem storeInv_run (mem : List GoMap) (d : Nat) (ops : List StoreOp) :
    ∀ s, StoreInv mem d s → ∃ s1, s.run ops = some s1 ∧ StoreInv mem d s1 := by
  induction ops with
  | nil => intro s h; exact ⟨s, rfl, h⟩
  | cons op ops ih =>
    intro s h
    obtain ⟨s1, e1, i1⟩ := storeInv_apply mem d s h op
    obtain ⟨s2, e2, i2⟩ := ih s1 i1
    refine ⟨s2, ?_, i2⟩
    rcases e1 with e1 | e1 <;> simp [Store.run, e1, e2]

/-! ## The store: claims -/

/-- C1 (reset convergence): for a store built by `NewStore` on the map at `d`
and any sequence of `Set`, `Reduce` and `Reset` calls, the sequence runs to an
end, a further `Reset` returns, and afterwards the live map is a map of its own
(not the defaults map) that has, key by key, exactly the entries of `d`, so that
`Get` returns what `d` holds. -/
theorem reset_convergence (mem : List GoMap) (d : Nat) (hd : d < mem.length)
    (ops : List StoreOp) :
    ∃ s s1, (NewStore mem d).run ops = some s ∧ s.Reset = .returned s1 ∧
      s1.values ≠ s1.defaultValues ∧
      (∀ k, (deref s1.mem s1.values).lookup k = (deref mem d).lookup k) ∧
      (∀ k v, (deref mem d).lookup k = some v → s1.Get k = v) := by
  obtain ⟨s, e, i⟩ := storeInv_run mem d ops _ (storeInv_new mem d hd)
  obtain ⟨s1, e1, i1, hk⟩ := storeInv_reset mem d s i
  refine ⟨s, s1, e, e1, ?_, hk, ?_⟩
  · have := i1.2.1; rw [i1.1]; omega
  · intro k v hv
    simp [Store.Get, Store.index, hk k, hv]

/-- Witness of C1: defaults with one key, a `Set` of a new key, a failing and a
working `Reduce`, a `Reset`. -/
theorem reset_convergence_witness :
    (0 < [(AList.insert "bytes.read.count" (Val.int64 0) ∅ : GoMap)].length) ∧
    ∃ s s1, (NewStore [(AList.insert "bytes.read.count" (Val.int64 0) ∅ : GoMap)] 0).run
        [.set "extra" (.int 1), .reduce "extra" (addBytes 4),
         .reduce "bytes.read.count" (addBytes 4), .reset] = some s ∧
      s.Reset = .returned s1 ∧ s1.values ≠ s1.defaultValues ∧
      (∀ k, (deref s1.mem s1.values).lookup k
        = (deref [(AList.insert "bytes.read.count" (Val.int64 0) ∅ : GoMap)] 0).lookup k) ∧
      (∀ k v, (deref [(AList.insert "bytes.read.count" (Val.int64 0) ∅ : GoMap)] 0).lookup k
        = some v → s1.Get k = v) :=
  ⟨by decide, reset_convergence _ 0 (by decide) _⟩

/-- C2 (reducer atomicity): when the reducer fails on the current value of the
key, `Reduce` panics (the failure reaches the caller) in the very state it was
called in: no map of the heap has changed, the broker (and with it every
channel) is as before, so no event was broadcast, and a `Get` made by a caller
that recovers returns the value from before the call. -/
theorem reduce_atomic (s : Store) (key : String) (reducer : Val → Option Val)
    (h : reducer (s.Get key) = none) :
    s.Reduce key reducer = .panicked s ∧
      ∀ s1, s.run [.reduce key reducer] = some s1 →
        s1.mem = s.mem ∧ s1.values = s.values ∧ s1.broker = s.broker ∧
          s1.Get key = s.Get key := by
  have hp : s.Reduce key reducer = .panicked s := by
    simp only [Store.Get] at h
    simp [Store.Reduce, h]
  refine ⟨hp, ?_⟩
  intro s1 h1
  simp only [Store.run, Store.apply, hp, Option.some.injEq] at h1
  subst h1
  exact ⟨rfl, rfl, rfl, rfl⟩

/-- Witness of C2: the reducer of `createListener` applied to a key that holds
an `int`, as `session.count` does in `main`. -/
theorem reduce_atomic_witness :
    addBytes 7 ((NewStore [(AList.insert "session.count" (Val.int 0) ∅ : GoMap)] 0).Get
        "session.count") = none ∧
    (NewStore [(AList.insert "session.count" (Val.int 0) ∅ : GoMap)] 0).Reduce
        "session.count" (addBytes 7)
      = .panicked (NewStore [(AList.insert "session.count" (Val.int 0) ∅ : GoMap)] 0) :=
  ⟨by decide, (reduce_atomic _ "session.count" (addBytes 7) (by decide)).1⟩

/-! ## Lemmas on the throttled pipeline -/

theorem throttle_run_append (predicate : Predicate) (delay : Int) (xs ys : List Received) :
    ∀ s : Throttle, Throttle.run predicate delay s (xs ++ ys)
      = (Throttle.run predicate delay s xs).bind (fun s1 => Throttle.run predicate delay s1 ys) := by
  induction xs with
  | nil => intro s; rfl
  | cons x xs ih =>
    intro s
    simp only [List.cons_append, Throttle.run]
    cases s.step predicate delay x with
    | none => rfl
    | some s1 => exact ih s1

theorem throttle_run_deferred (predicate : Predicate) (delay : Int) (es : List (Event × Int)) :
    ∀ s : Throttle, s.running = true → (∀ x ∈ es, predicate x.1.Key = true) →
      (∀ x ∈ es, x.2 ≤ s.timeBarrier) →
      Throttle.run predicate delay s (recvAll es) = some (deferred s es) := by
  induction es with
  | nil => intro s _ _ _; simp [recvAll, Throttle.run, deferred]
  | cons x es ih =>
    intro s hrun hm hd
    have hx := hm x (List.mem_cons_self _ _)
    have ht := hd x (List.mem_cons_self _ _)
    have hstep : s.step predicate delay (.recv x.1 x.2)
        = some { s with cache := s.cache.insert x.1.Key x.1
                        timeout := some (s.timeout.getD s.timeBarrier) } := by
      simp only [Throttle.step, hrun, hx, not_lt.mpr ht]
      cases s.timeout with
      | none =>
        have : x.2 + max (s.timeBarrier - x.2) 0 = s.timeBarrier := by
          rw [max_eq_left (by omega)]; omega
        simp [this]
      | some dl => simp
    simp only [recvAll, List.map_cons, Throttle.run, hstep]
    have := ih { s with cache := s.cache.insert x.1.Key x.1
                        timeout := some (s.timeout.getD s.timeBarrier) } hrun
      (fun y hy => hm y (List.mem_cons_of_mem _ hy)) (fun y hy => hd y (List.mem_cons_of_mem _ hy))
    simp only [recvAll] at this
    rw [this]
    simp only [deferred, List.foldl_cons, Option.getD_some]
    by_cases he : es = [] <;> simp [he]

theorem foldl_cache_lookup (es : List (Event × Int)) (c : AList (fun _ : String => Event))
    (k : String) :
    (es.foldl (fun c x => c.insert x.1.Key x.1) c).lookup k
      = (lastEventFor k es).orElse (fun _ => c.lookup k) := by
  induction es using List.reverseRecOn with
  | nil => simp [lastEventFor]
  | append_singleton es x ih =>
    rw [List.foldl_append, List.foldl_cons, List.foldl_nil]
    by_cases hk : x.1.Key = k
    · subst hk
      simp [lastEventFor, List.filter_append, AList.lookup_insert]
    · have hk2 : k ≠ x.1.Key := fun h => hk h.symm
      rw [AList.lookup_insert_ne hk2, ih]
      simp [lastEventFor, List.filter_append, hk]

theorem keyed_empty : Keyed ∅ := by
  intro k e h
  simp at h

theorem keyed_insert (c : AList (fun _ : String => Event)) (h : Keyed c) (e : Event) :
    Keyed (c.insert e.Key e) := by
  intro k e1 h1
  by_cases hk : k = e.Key
  · subst hk
    rw [AList.lookup_insert] at h1
    simp only [Option.some.injEq] at h1
    rw [← h1]
  · rw [AList.lookup_insert_ne hk] at h1
    exact h k e1 h1

theorem keyed_foldl (es : List (Event × Int)) :
    ∀ c : AList (fun _ : String => Event), Keyed c →
      Keyed (es.foldl (fun c x => c.insert x.1.Key x.1) c) := by
  induction es with
  | nil => intro c h; exact h
  | cons x es ih => intro c h; exact ih _ (keyed_insert c h x.1)

theorem keyed_step (predicate : Predicate) (delay : Int) (s s1 : Throttle) (i : Received)
    (h : Keyed s.cache) (hs : s.step predicate delay i = some s1) : Keyed s1.cache := by
  cases i with
  | recv event now =>
    simp only [Throttle.step] at hs
    split_ifs at hs <;> simp only [Option.some.injEq] at hs <;> subst hs
    · exact h
    · exact keyed_insert _ h event
    · exact h
  | closed =>
    simp only [Throttle.step] at hs
    split_ifs at hs
    simp only [Option.some.injEq] at hs
    subst hs
    exact h
  | timer now =>
    simp only [Throttle.step] at hs
    split_ifs at hs
    cases ht : s.timeout with
    | none => simp [ht] at hs
    | some dl =>
      simp only [ht] at hs
      split_ifs at hs
      simp only [Option.some.injEq] at hs
      subst hs
      exact keyed_empty

theorem keyed_run (predicate : Predicate) (delay : Int) (inputs : List Received) :
    ∀ s s1 : Throttle, Keyed s.cache → Throttle.run predicate delay s inputs = some s1 →
      Keyed s1.cache := by
  induction inputs with
  | nil =>
    intro s s1 h hs
    simp only [Throttle.run, Option.some.injEq] at hs
    subst hs
    exact h
  | cons i rest ih =>
    intro s s1 h hs
    simp only [Throttle.run] at hs
    cases hstep : s.step predicate delay i with
    | none => simp [hstep] at hs
    | some s2 =>
      simp only [hstep] at hs
      exact ih s2 s1 (keyed_step predicate delay s s2 i h hstep) hs

theorem keyed_batch_keys (c : AList (fun _ : String => Event)) (h : Keyed c) :
    (c.entries.map (fun e => e.2)).map Event.Key = c.keys := by
  simp only [List.map_map, AList.keys, List.keys]
  apply List.map_congr_left
  intro e he
  obtain ⟨k, v⟩ := e
  exact h k v (AList.mem_lookup_iff.mpr he)

theorem mem_batch_iff (c : AList (fun _ : String => Event)) (h : Keyed c) (e : Event) :
    e ∈ c.entries.map (fun x => x.2) ↔ c.lookup e.Key = some e := by
  constructor
  · intro he
    obtain ⟨⟨k, v⟩, hx, rfl⟩ := List.mem_map.mp he
    have hl : c.lookup k = some v := AList.mem_lookup_iff.mpr hx
    rw [h k v hl]
    exact hl
  · intro hl
    exact List.mem_map.mpr ⟨⟨e.Key, e⟩, AList.mem_lookup_iff.mp hl, rfl⟩

/-! ## The throttled pipeline: claims -/

/-- C3, as stated, fails at the barrier itself: the goroutine started at time 5
with delay 0 has no timer armed; its first event, processed at time 5 (equal to
`timeBarrier`) under the all-pass predicate, is not emitted: nothing is sent on
`out`, the event is stored in `cache` and a timer is armed. -/
theorem immediate_at_barrier_counterexample :
    (Throttle.start 5).timeout = none ∧ All "a" = true ∧ (Throttle.start 5).timeBarrier ≤ 5 ∧
    ∃ s1, (Throttle.start 5).step All 0 (.recv { Key := "a", Value := .int 1 } 5) = some s1 ∧
      s1.out = [] ∧ s1.cache.lookup "a" = some { Key := "a", Value := .int 1 } ∧
      s1.timeout = some 5 := by
  refine ⟨rfl, rfl, le_refl _, _, rfl, rfl, ?_, ?_⟩
  · decide
  · decide

/-- C3, amended: with no timer armed, an event whose key passes the predicate
and that is processed strictly after `timeBarrier` is sent at once as the batch
`[event]`, `timeBarrier` becomes `t + delay`, and `cache` and the timer are left
as they were; processed exactly at `timeBarrier` it is instead stored in `cache`
and a timer is armed for `timeBarrier`, with nothing sent. -/
theorem immediate_after_barrier (predicate : Predicate) (delay : Int) (s : Throttle)
    (event : Event) (t : Int) (hrun : s.running = true) (hidle : s.timeout = none)
    (hp : predicate event.Key = true) :
    (s.timeBarrier < t →
      s.step predicate delay (.recv event t)
        = some { s with out := s.out ++ [(t, [event])], timeBarrier := t + delay }) ∧
    (t = s.timeBarrier →
      s.step predicate delay (.recv event t)
        = some { s with cache := s.cache.insert event.Key event, timeout := some t }) := by
  constructor
  · intro ht
    simp [Throttle.step, hrun, hp, ht]
  · intro ht
    subst ht
    simp [Throttle.step, hrun, hp, hidle]

/-- Witness of C3 amended: the first event one tick after the start, delay 0. -/
theorem immediate_after_barrier_witness :
    (Throttle.start 5).step All 0 (.recv { Key := "a", Value := .int 1 } 6)
      = some { Throttle.start 5 with
          out := (Throttle.start 5).out ++ [(6, [{ Key := "a", Value := .int 1 }])]
          timeBarrier := 6 + 0 } :=
  (immediate_after_barrier All 0 (Throttle.start 5) { Key := "a", Value := .int 1 } 6
    rfl rfl rfl).1 (by decide)

/-- C4 (coalescing): in any state the goroutine can reach, let a non-empty list
of matching events be processed not after `timeBarrier` (so each is deferred)
and let the timer then fire at a time `now` at or after its deadline.  The run
goes through, exactly one batch is sent, no two entries of the batch have the
same key, for every key among the deferred events the batch holds the last
deferred event of that key, and `cache` is empty and the timer disarmed
afterwards.  When `cache` was empty before the first deferred event, the batch
holds nothing else. -/
theorem coalescing (predicate : Predicate) (delay start : Int) (before : List Received)
    (s : Throttle) (es : List (Event × Int)) (now : Int)
    (hreach : Throttle.run predicate delay (Throttle.start start) before = some s)
    (hrun : s.running = true) (hne : es ≠ [])
    (hmatch : ∀ x ∈ es, predicate x.1.Key = true)
    (hdefer : ∀ x ∈ es, x.2 ≤ s.timeBarrier)
    (hdue : s.timeout.getD s.timeBarrier ≤ now) :
    ∃ s1 batch, Throttle.run predicate delay s (recvAll es ++ [.timer now]) = some s1 ∧
      s1.out = s.out ++ [(now, batch)] ∧
      (batch.map Event.Key).Nodup ∧
      (∀ k e, lastEventFor k es = some e → e ∈ batch ∧ e.Key = k) ∧
      (s.cache = ∅ → ∀ e ∈ batch, lastEventFor e.Key es = some e) ∧
      s1.cache = ∅ ∧ s1.timeout = none := by
  have hk0 : Keyed s.cache := keyed_run predicate delay before _ s keyed_empty hreach
  have hk1 : Keyed (deferred s es).cache := keyed_foldl es s.cache hk0
  have hstep : (deferred s es).step predicate delay (.timer now)
      = some { deferred s es with
          out := s.out ++ [(now, (deferred s es).cache.entries.map (fun e => e.2))]
          cache := ∅
          timeBarrier := now + delay
          timeout := none } := by
    have h1 : (deferred s es).running = true := hrun
    have h2 : (deferred s es).timeout = some (s.timeout.getD s.timeBarrier) := by
      simp [deferred, hne]
    simp only [Throttle.step, h1, h2, not_lt.mpr hdue]
    simp [deferred]
  refine ⟨{ deferred s es with
      out := s.out ++ [(now, (deferred s es).cache.entries.map (fun e => e.2))]
      cache := ∅
      timeBarrier := now + delay
      timeout := none },
    (deferred s es).cache.entries.map (fun e => e.2), ?_, rfl, ?_, ?_, ?_, rfl, rfl⟩
  · rw [throttle_run_append, throttle_run_deferred predicate delay es s hrun hmatch hdefer]
    simp only [Option.some_bind, Throttle.run, hstep]
  · rw [keyed_batch_keys _ hk1]
    exact AList.keys_nodup _
  · intro k e he
    have hl : (deferred s es).cache.lookup k = some e := by
      simp only [deferred]
      rw [foldl_cache_lookup, he]
      rfl
    have hkey : e.Key = k := hk1 k e hl
    refine ⟨?_, hkey⟩
    rw [mem_batch_iff _ hk1, hkey]
    exact hl
  · intro hc e he
    rw [mem_batch_iff _ hk1] at he
    simp only [deferred] at he
    rw [foldl_cache_lookup, hc] at he
    cases hl : lastEventFor e.Key es with
    | none => simp [hl] at he
    | some e1 => simpa [hl] using he

/-- Witness of C4: the window opened at time 0 with delay 100, `a` set to 2 at
time 30 and to 3 at time 60, the timer fires at time 100. -/
theorem coalescing_witness :
    ∃ s1 batch, Throttle.run All 100
        { Throttle.start 0 with
          out := [(0, [{ Key := "a", Value := .int 1 }])], timeBarrier := 0 + 100 }
        (recvAll [({ Key := "a", Value := .int 2 }, 30), ({ Key := "a", Value := .int 3 }, 60)]
          ++ [.timer 100]) = some s1 ∧
      s1.out = [(0, [{ Key := "a", Value := .int 1 }])] ++ [(100, batch)] ∧
      (batch.map Event.Key).Nodup ∧
      (∀ k e, lastEventFor k
          [({ Key := "a", Value := .int 2 }, 30), ({ Key := "a", Value := .int 3 }, 60)] = some e →
        e ∈ batch ∧ e.Key = k) ∧
      ((∅ : AList (fun _ : String => Event)) = ∅ → ∀ e ∈ batch, lastEventFor e.Key
          [({ Key := "a", Value := .int 2 }, 30), ({ Key := "a", Value := .int 3 }, 60)] = some e) ∧
      s1.cache = ∅ ∧ s1.timeout = none :=
  coalescing All 100 (-1) [.recv { Key := "a", Value := .int 1 } 0]
    { Throttle.start 0 with
      out := [(0, [{ Key := "a", Value := .int 1 }])], timeBarrier := 0 + 100 }
    [({ Key := "a", Value := .int 2 }, 30), ({ Key := "a", Value := .int 3 }, 60)] 100
    (by simp [Throttle.run, Throttle.step, Throttle.start, All]) rfl (by decide) (by decide)
    (by decide) (by decide)

/-- C5 (rate bound) fails on the code: with delay 100 and the goroutine started
at time 0, `a=1` at time 1 is sent at once (barrier 101), `a=2` at time 50 is
deferred and arms the timer for 101, `a=3` is handled at time 102 before the due
timer and is sent at once, and the timer handled at time 103 sends the stale
cache: two batches one tick apart. -/
theorem rate_bound_broken :
    timesOrdered raceInputs = true ∧
    ∃ s, Throttle.run All 100 (Throttle.start 0) raceInputs = some s ∧
      s.out = [(1, [{ Key := "a", Value := .int 1 }]), (102, [{ Key := "a", Value := .int 3 }]),
               (103, [{ Key := "a", Value := .int 2 }])] ∧
      paced 100 s.out = false := by
  refine ⟨by decide, _, by simp [raceInputs, Throttle.run, Throttle.step, Throttle.start, All]; rfl,
    ?_, ?_⟩
  · decide
  · decide

/-- C6 (latest value wins) fails on the code, on the same run: at the end
`cache` is empty and no timer is armed, the value last delivered for `a` is 2,
the value of the last event received for `a` is 3. -/
theorem latest_value_lost :
    ∃ s, Throttle.run All 100 (Throttle.start 0) raceInputs = some s ∧
      s.cache = ∅ ∧ s.timeout = none ∧
      lastDelivered "a" s.out = some (.int 2) ∧
      lastReceived All "a" raceInputs = some (.int 3) := by
  refine ⟨_, by simp [raceInputs, Throttle.run, Throttle.step, Throttle.start, All]; rfl,
    rfl, rfl, ?_, ?_⟩
  · decide
  · decide

/-- C7 (end of stream) fails on the code for the throttled goroutine: no round
changes `outClosed`; when `in` is closed the goroutine ends with `out` still
open, and no further round can happen.  The goroutine of `Register` does close
its `out` at the end of `in`. -/
theorem throttled_out_left_open :
    (∀ (predicate : Predicate) (delay : Int) (s : Throttle) (i : Received),
      ((s.step predicate delay i).map (fun s1 => s1.outClosed)).getD s.outClosed = s.outClosed) ∧
    (∃ s, Throttle.run All 250 (Throttle.start 0)
        [.recv { Key := "a", Value := .int 1 } 1, .closed] = some s ∧
      s.running = false ∧ s.outClosed = false ∧ ∀ i, s.step All 250 i = none) ∧
    (∃ f, Forward.step All Forward.start none = some f ∧
      f.running = false ∧ f.outClosed = true) := by
  refine ⟨?_, ⟨_, by simp [Throttle.run, Throttle.step, Throttle.start, All]; rfl, rfl, rfl, ?_⟩,
    ⟨_, rfl, rfl, rfl⟩⟩
  · intro predicate delay s i
    cases i with
    | recv event now =>
      simp only [Throttle.step]
      split_ifs <;> rfl
    | closed =>
      simp only [Throttle.step]
      split_ifs <;> rfl
    | timer now =>
      simp only [Throttle.step]
      split_ifs
      · rfl
      · cases s.timeout with
        | none => rfl
        | some dl =>
          simp only
          split_ifs <;> rfl
  · intro i
    cases i <;> rfl

/-! ## Lemmas on the bus -/

theorem chanSend_returned {T : Type} (chans chans1 : List (Chan T)) (ch : Nat) (msg : T)
    (h : chanSend chans ch msg = .returned chans1) :
    ∃ c, chans[ch]? = some c ∧ c.closed = false ∧ c.buf.length < chanCap ∧
      chans1 = chans.set ch (c.push msg) := by
  unfold chanSend at h
  cases hc : chans[ch]? with
  | none => simp [hc] at h
  | some c =>
    simp only [hc] at h
    split_ifs at h with h1 h2
    simp only [Outcome.returned.injEq] at h
    exact ⟨c, rfl, by simpa using h1, by omega, h.symm⟩

theorem chanSend_open {T : Type} (chans : List (Chan T)) (ch : Nat) (msg : T) (c : Chan T)
    (hc : chans[ch]? = some c) (ho : c.closed = false) (hf : c.buf.length < chanCap) :
    chanSend chans ch msg = .returned (chans.set ch (c.push msg)) := by
  unfold chanSend
  rw [hc]
  simp only []
  rw [if_neg (by simp [ho]), if_neg (not_le.mpr hf)]
  rfl

theorem chanSend_no_panic {T : Type} (chans x : List (Chan T)) (ch : Nat) (msg : T)
    (hc : ∀ c, chans[ch]? = some c → c.closed = false) :
    chanSend chans ch msg ≠ .panicked x := by
  unfold chanSend
  cases h : chans[ch]? with
  | none => simp
  | some c =>
    have ho := hc c h
    simp only []
    rw [if_neg (by simp [ho])]
    split_ifs <;> simp

theorem set_push_getElem? {T : Type} (chans : List (Chan T)) (ch i : Nat) (c : Chan T)
    (msg : T) (hc : chans[ch]? = some c) :
    (chans.set ch (c.push msg))[i]?
      = (chans[i]?).map (fun c1 => if i = ch then c1.push msg else c1) := by
  by_cases hi : i = ch
  · subst hi
    have hlt : i < chans.length := (List.getElem?_eq_some.mp hc).1
    rw [List.getElem?_set_self hlt, hc]
    simp
  · rw [List.getElem?_set_ne (fun h => hi h.symm)]
    cases chans[i]? <;> simp [hi]

theorem broadcastLoop_returned {T : Type} (msg : T)
    (l : List (Sigma (fun _ : RegistrationToken => Nat))) :
    ∀ chans chans1 : List (Chan T), (l.map (fun e => e.2)).Nodup →
      broadcastLoop chans msg l = .returned chans1 →
      ∀ i, chans1[i]?
        = (chans[i]?).map (fun c => if i ∈ l.map (fun e => e.2) then c.push msg else c) := by
  induction l with
  | nil =>
    intro chans chans1 _ h i
    simp only [broadcastLoop, Outcome.returned.injEq] at h
    subst h
    cases chans[i]? <;> simp
  | cons e rest ih =>
    intro chans chans1 hnd h i
    rw [List.map_cons, List.nodup_cons] at hnd
    simp only [broadcastLoop] at h
    cases hs : chanSend chans e.2 msg with
    | blocked => simp [hs] at h
    | panicked x => simp [hs] at h
    | returned chans2 =>
      simp only [hs] at h
      obtain ⟨c, hc, _, _, rfl⟩ := chanSend_returned chans chans2 e.2 msg hs
      rw [ih _ chans1 hnd.2 h i, set_push_getElem? chans e.2 i c msg hc]
      cases chans[i]? with
      | none => rfl
      | some c1 =>
        simp only [Option.map_some', List.map_cons, List.mem_cons, Option.some.injEq]
        by_cases hi : i = e.2
        · rw [if_pos hi, if_neg (hi ▸ hnd.1), if_pos (Or.inl hi)]
        · rw [if_neg hi]
          by_cases hm : i ∈ List.map (fun e => e.2) rest
          · rw [if_pos hm, if_pos (Or.inr hm)]
          · rw [if_neg hm, if_neg (not_or.mpr ⟨hi, hm⟩)]

theorem broadcastLoop_open {T : Type} (msg : T)
    (l : List (Sigma (fun _ : RegistrationToken => Nat))) :
    ∀ chans : List (Chan T), (l.map (fun e => e.2)).Nodup →
      (∀ e ∈ l, ∃ c, chans[e.2]? = some c ∧ c.closed = false ∧ c.buf.length < chanCap) →
      ∃ chans1, broadcastLoop chans msg l = .returned chans1 := by
  induction l with
  | nil => intro chans _ _; exact ⟨chans, rfl⟩
  | cons e rest ih =>
    intro chans hnd hopen
    rw [List.map_cons, List.nodup_cons] at hnd
    obtain ⟨c, hc, ho, hf⟩ := hopen e (List.mem_cons_self _ _)
    simp only [broadcastLoop, chanSend_open chans e.2 msg c hc ho hf]
    apply ih _ hnd.2
    intro e1 he1
    obtain ⟨c1, hc1, ho1, hf1⟩ := hopen e1 (List.mem_cons_of_mem _ he1)
    have hne : e.2 ≠ e1.2 := by
      intro heq
      exact hnd.1 (heq ▸ List.mem_map.mpr ⟨e1, he1, rfl⟩)
    exact ⟨c1, by rw [List.getElem?_set_ne hne]; exact hc1, ho1, hf1⟩

theorem broadcastLoop_no_panic {T : Type} (msg : T)
    (l : List (Sigma (fun _ : RegistrationToken => Nat))) :
    ∀ chans x : List (Chan T),
      (∀ e ∈ l, ∀ c, chans[e.2]? = some c → c.closed = false) →
      broadcastLoop chans msg l ≠ .panicked x := by
  induction l with
  | nil => intro chans x _; simp [broadcastLoop]
  | cons e rest ih =>
    intro chans x hopen
    simp only [broadcastLoop]
    cases hs : chanSend chans e.2 msg with
    | blocked => simp
    | panicked y => exact absurd hs (chanSend_no_panic chans y e.2 msg (hopen e (List.mem_cons_self _ _)))
    | returned chans2 =>
      simp only
      obtain ⟨c, hc, _, _, rfl⟩ := chanSend_returned chans chans2 e.2 msg hs
      apply ih
      intro e1 he1 c1 hc1
      rw [set_push_getElem? chans e.2 e1.2 c msg hc] at hc1
      cases hg : chans[e1.2]? with
      | none => simp [hg] at hc1
      | some c2 =>
        simp only [hg, Option.map_some', Option.some.injEq] at hc1
        have := hopen e1 (List.mem_cons_of_mem _ he1) c2 hg
        rw [← hc1]
        split_ifs <;> simpa [Chan.push] using this

theorem busInv_new {T : Type} : BusInv (NewBroker : Broker T) := by
  constructor
  · intro key ch h
    simp [NewBroker] at h
  · intro k1 k2 ch h
    simp [NewBroker] at h

theorem busInv_ids_nodup {T : Type} (b : Broker T) (h : BusInv b) :
    (b.clients.entries.map (fun e => e.2)).Nodup := by
  apply List.Nodup.map_on
  · intro x hx y hy hxy
    obtain ⟨k1, c1⟩ := x
    obtain ⟨k2, c2⟩ := y
    simp only at hxy
    subst hxy
    have h1 : b.clients.lookup k1 = some c1 := AList.mem_lookup_iff.mpr hx
    have h2 : b.clients.lookup k2 = some c1 := AList.mem_lookup_iff.mpr hy
    rw [h.2 k1 k2 c1 h1 h2]
  · exact List.Nodup.of_map _ b.clients.nodupKeys

theorem busInv_mem_ids {T : Type} (b : Broker T) (ch : Nat) :
    ch ∈ b.clients.entries.map (fun e => e.2) ↔ ∃ key, b.clients.lookup key = some ch := by
  constructor
  · intro h
    obtain ⟨⟨k, c⟩, hx, rfl⟩ := List.mem_map.mp h
    exact ⟨k, AList.mem_lookup_iff.mpr hx⟩
  · rintro ⟨key, h⟩
    exact List.mem_map.mpr ⟨⟨key, ch⟩, AList.mem_lookup_iff.mp h, rfl⟩

theorem broadcast_returned {T : Type} (b b1 : Broker T) (msg : T) (h : BusInv b)
    (hb : b.Broadcast msg = .returned b1) :
    b1.clients = b.clients ∧
      (∀ key ch c, b.clients.lookup key = some ch → b.chans[ch]? = some c →
        b1.chans[ch]? = some (c.push msg)) ∧
      (∀ ch, (∀ key, b.clients.lookup key ≠ some ch) → b1.chans[ch]? = b.chans[ch]?) := by
  unfold Broker.Broadcast at hb
  cases hl : broadcastLoop b.chans msg b.clients.entries with
  | blocked => simp [hl] at hb
  | panicked x => simp [hl] at hb
  | returned chans1 =>
    simp only [hl, Outcome.returned.injEq] at hb
    subst hb
    have hall := broadcastLoop_returned msg _ b.chans chans1 (busInv_ids_nodup b h) hl
    refine ⟨rfl, ?_, ?_⟩
    · intro key ch c hk hc
      have hm : ch ∈ b.clients.entries.map (fun e => e.2) := (busInv_mem_ids b ch).mpr ⟨key, hk⟩
      simp only
      rw [hall ch, hc, Option.map_some', if_pos hm]
    · intro ch hno
      have hm : ch ∉ b.clients.entries.map (fun e => e.2) := by
        intro hx
        obtain ⟨key, hk⟩ := (busInv_mem_ids b ch).mp hx
        exact hno key hk
      simp only
      rw [hall ch]
      cases b.chans[ch]? with
      | none => rfl
      | some c => rw [Option.map_some', if_neg hm]

theorem broadcast_no_panic {T : Type} (b x : Broker T) (msg : T) (h : BusInv b) :
    b.Broadcast msg ≠ .panicked x := by
  unfold Broker.Broadcast
  cases hl : broadcastLoop b.chans msg b.clients.entries with
  | blocked => simp
  | returned chans1 => simp
  | panicked y =>
    refine absurd hl (broadcastLoop_no_panic msg _ b.chans y ?_)
    intro e he c hc
    obtain ⟨k, ch⟩ := e
    obtain ⟨c1, hc1, ho⟩ := h.1 k ch (AList.mem_lookup_iff.mpr he)
    simp only at hc
    rw [hc1] at hc
    simp only [Option.some.injEq] at hc
    rw [← hc]
    exact ho

theorem busInv_broadcast {T : Type} (b b1 : Broker T) (msg : T) (h : BusInv b)
    (hb : b.Broadcast msg = .returned b1) (key : RegistrationToken) :
    BusInv b1 ∧ inboxOf b1 key = (inboxOf b key).map (fun l => l ++ [msg]) := by
  obtain ⟨hc, hch, _⟩ := broadcast_returned b b1 msg h hb
  refine ⟨⟨?_, ?_⟩, ?_⟩
  · intro k ch hk
    rw [hc] at hk
    obtain ⟨c, hc1, ho⟩ := h.1 k ch hk
    exact ⟨c.push msg, hch k ch c hk hc1, ho⟩
  · intro k1 k2 ch h1 h2
    rw [hc] at h1 h2
    exact h.2 k1 k2 ch h1 h2
  · unfold inboxOf
    rw [hc]
    cases hk : b.clients.lookup key with
    | none => rfl
    | some ch =>
      obtain ⟨c, hc1, _⟩ := h.1 key ch hk
      simp only [Option.some_bind, hch key ch c hk hc1, hc1, Option.map_some']
      rfl

theorem busInv_register {T : Type} (b : Broker T) (rnd : Option RegistrationToken)
    (h : BusInv b) (key : RegistrationToken) :
    BusInv (b.Register rnd).1 ∧
      inboxOf (b.Register rnd).1 key = if rnd = some key then some [] else inboxOf b key := by
  cases rnd with
  | none => exact ⟨h, by simp [Broker.Register]⟩
  | some k =>
    have hlook : ∀ k1 ch, (b.clients.insert k b.chans.length).lookup k1 = some ch →
        (k1 = k ∧ ch = b.chans.length) ∨ (k1 ≠ k ∧ b.clients.lookup k1 = some ch) := by
      intro k1 ch h1
      by_cases hk : k1 = k
      · subst hk
        rw [AList.lookup_insert] at h1
        simp only [Option.some.injEq] at h1
        exact Or.inl ⟨rfl, h1.symm⟩
      · rw [AList.lookup_insert_ne hk] at h1
        exact Or.inr ⟨hk, h1⟩
    have hold : ∀ k1 ch, b.clients.lookup k1 = some ch → ch < b.chans.length := by
      intro k1 ch h1
      obtain ⟨c, hc, _⟩ := h.1 k1 ch h1
      exact (List.getElem?_eq_some.mp hc).1
    refine ⟨⟨?_, ?_⟩, ?_⟩
    · intro k1 ch h1
      simp only [Broker.Register] at h1 ⊢
      rcases hlook k1 ch h1 with ⟨_, rfl⟩ | ⟨_, h2⟩
      · exact ⟨_, List.getElem?_concat_length _ _, rfl⟩
      · obtain ⟨c, hc, ho⟩ := h.1 k1 ch h2
        exact ⟨c, by rw [List.getElem?_append_left (hold k1 ch h2)]; exact hc, ho⟩
    · intro k1 k2 ch h1 h2
      simp only [Broker.Register] at h1 h2
      rcases hlook k1 ch h1 with ⟨e1, c1⟩ | ⟨n1, l1⟩ <;>
        rcases hlook k2 ch h2 with ⟨e2, c2⟩ | ⟨n2, l2⟩
      · rw [e1, e2]
      · have := hold k2 ch l2; omega
      · have := hold k1 ch l1; omega
      · exact h.2 k1 k2 ch l1 l2
    · unfold inboxOf
      simp only [Broker.Register, Option.some.injEq]
      by_cases hk : k = key
      · subst hk
        rw [if_pos rfl, AList.lookup_insert]
        simp
      · rw [if_neg hk, AList.lookup_insert_ne (fun hx => hk hx.symm)]
        cases hl : b.clients.lookup key with
        | none => rfl
        | some ch =>
          simp only [Option.some_bind]
          rw [List.getElem?_append_left (hold key ch hl)]

theorem cancel_cases {T : Type} (b : Broker T) (k : RegistrationToken) (h : BusInv b) :
    (b.clients.lookup k = none ∧ b.Cancel k = .returned b) ∨
    ∃ ch c, b.clients.lookup k = some ch ∧ b.chans[ch]? = some c ∧ c.closed = false ∧
      b.Cancel k = .returned { chans := b.chans.set ch { c with closed := true },
                               clients := b.clients.erase k } := by
  cases hl : b.clients.lookup k with
  | none => exact Or.inl ⟨rfl, by simp [Broker.Cancel, hl]⟩
  | some ch =>
    obtain ⟨c, hc, ho⟩ := h.1 k ch hl
    exact Or.inr ⟨ch, c, rfl, hc, ho, by simp [Broker.Cancel, hl, hc, ho]⟩

theorem busInv_cancel {T : Type} (b : Broker T) (k : RegistrationToken) (h : BusInv b)
    (key : RegistrationToken) :
    ∃ b1, b.Cancel k = .returned b1 ∧ BusInv b1 ∧ b1.clients.lookup k = none ∧
      inboxOf b1 key = if k = key then none else inboxOf b key := by
  rcases cancel_cases b k h with ⟨hl, hc⟩ | ⟨ch, c, hl, hc, ho, hcancel⟩
  · refine ⟨b, hc, h, hl, ?_⟩
    by_cases hk : k = key
    · subst hk
      simp [inboxOf, hl]
    · rw [if_neg hk]
  · have hother : ∀ k1 ch1, (b.clients.erase k).lookup k1 = some ch1 →
        k1 ≠ k ∧ b.clients.lookup k1 = some ch1 ∧ ch1 ≠ ch := by
      intro k1 ch1 h1
      have hne : k1 ≠ k := by
        intro hx
        subst hx
        rw [AList.lookup_erase] at h1
        exact Option.noConfusion h1
      rw [AList.lookup_erase_ne hne] at h1
      refine ⟨hne, h1, ?_⟩
      intro hx
      subst hx
      exact hne (h.2 k1 k ch1 h1 hl)
    refine ⟨_, hcancel, ⟨?_, ?_⟩, AList.lookup_erase k b.clients, ?_⟩
    · intro k1 ch1 h1
      obtain ⟨_, h2, h3⟩ := hother k1 ch1 h1
      obtain ⟨c1, hc1, ho1⟩ := h.1 k1 ch1 h2
      exact ⟨c1, by simp only; rw [List.getElem?_set_ne (fun hx => h3 hx.symm)]; exact hc1, ho1⟩
    · intro k1 k2 ch1 h1 h2
      exact h.2 k1 k2 ch1 (hother k1 ch1 h1).2.1 (hother k2 ch1 h2).2.1
    · unfold inboxOf
      simp only
      by_cases hk : k = key
      · subst hk
        rw [if_pos rfl, AList.lookup_erase]
        rfl
      · rw [if_neg hk, AList.lookup_erase_ne (fun hx => hk hx.symm)]
        cases hl1 : b.clients.lookup key with
        | none => rfl
        | some ch1 =>
          simp only [Option.some_bind]
          have hne : ch ≠ ch1 := by
            intro hx
            subst hx
            exact hk (h.2 k key ch hl hl1)
          rw [List.getElem?_set_ne hne]

theorem busInv_run {T : Type} (key : RegistrationToken) (ops : List (BusOp T)) :
    ∀ b : Broker T, BusInv b →
      (∀ x, b.run ops ≠ .panicked x) ∧
      ∀ b1, b.run ops = .returned b1 →
        BusInv b1 ∧ inboxOf b1 key = inboxAfter key (inboxOf b key) ops := by
  induction ops with
  | nil =>
    intro b h
    refine ⟨by simp [Broker.run], ?_⟩
    intro b1 h1
    simp only [Broker.run, Outcome.returned.injEq] at h1
    subst h1
    exact ⟨h, rfl⟩
  | cons op ops ih =>
    intro b h
    cases op with
    | register rnd =>
      obtain ⟨hi, hbox⟩ := busInv_register b rnd h key
      simp only [Broker.run, Broker.apply, inboxAfter]
      rw [← hbox]
      exact ih _ hi
    | broadcast msg =>
      simp only [Broker.run, Broker.apply, inboxAfter]
      cases hb : b.Broadcast msg with
      | blocked => simp
      | panicked y => exact absurd hb (broadcast_no_panic b y msg h)
      | returned b2 =>
        obtain ⟨hi, hbox⟩ := busInv_broadcast b b2 msg h hb key
        simp only
        rw [← hbox]
        exact ih _ hi
    | cancel k =>
      obtain ⟨b2, hc, hi, _, hbox⟩ := busInv_cancel b k h key
      simp only [Broker.run, Broker.apply, inboxAfter, hc]
      rw [← hbox]
      exact ih _ hi

/-! ## The bus: claims -/

/-- C8 (cancellation safety of the bus): no sequential run of `Register`,
`Broadcast` and `Cancel` calls from `NewBroker` panics, and in every state such
a run reaches every channel of the client table exists and is open, a closed
channel is under no token, `Broadcast` does not panic (no send on a closed
channel), `Cancel` does not panic (no channel is closed twice), `Cancel` of a
token that is not in the table returns the state unchanged, and `Cancel` of any
token returns a state in which the same `Cancel` changes nothing. -/
theorem bus_cancellation_safe {T : Type} (ops : List (BusOp T)) :
    (∀ x, (NewBroker : Broker T).run ops ≠ .panicked x) ∧
    ∀ b, (NewBroker : Broker T).run ops = .returned b →
      (∀ key ch, b.clients.lookup key = some ch →
        ∃ c, b.chans[ch]? = some c ∧ c.closed = false) ∧
      (∀ ch c, b.chans[ch]? = some c → c.closed = true →
        ∀ key, b.clients.lookup key ≠ some ch) ∧
      (∀ msg x, b.Broadcast msg ≠ .panicked x) ∧
      (∀ key x, b.Cancel key ≠ .panicked x) ∧
      (∀ key, b.clients.lookup key = none → b.Cancel key = .returned b) ∧
      (∀ key, ∃ b1, b.Cancel key = .returned b1 ∧ b1.clients.lookup key = none ∧
        b1.Cancel key = .returned b1) := by
  obtain ⟨hnp, hret⟩ := busInv_run 0 ops (NewBroker : Broker T) busInv_new
  refine ⟨hnp, ?_⟩
  intro b hb
  have hinv : BusInv b := (hret b hb).1
  refine ⟨hinv.1, ?_, ?_, ?_, ?_, ?_⟩
  · intro ch c hc hclosed key hk
    obtain ⟨c1, hc1, ho⟩ := hinv.1 key ch hk
    rw [hc] at hc1
    simp only [Option.some.injEq] at hc1
    rw [hc1, ho] at hclosed
    exact Bool.noConfusion hclosed
  · intro msg x
    exact broadcast_no_panic b x msg hinv
  · intro key x hx
    obtain ⟨b1, h1, _⟩ := busInv_cancel b key hinv key
    rw [h1] at hx
    exact Outcome.noConfusion hx
  · intro key hk
    simp [Broker.Cancel, hk]
  · intro key
    obtain ⟨b1, h1, hi1, hl1, _⟩ := busInv_cancel b key hinv key
    exact ⟨b1, h1, hl1, by simp [Broker.Cancel, hl1]⟩

/-- Witness of C8: register, broadcast, cancel twice, cancel an unknown token,
broadcast again. -/
theorem bus_cancellation_safe_witness :
    ∃ b, (NewBroker : Broker Nat).run cancelTwice = .returned b ∧
      (∀ key ch, b.clients.lookup key = some ch →
        ∃ c, b.chans[ch]? = some c ∧ c.closed = false) ∧
      (∀ ch c, b.chans[ch]? = some c → c.closed = true →
        ∀ key, b.clients.lookup key ≠ some ch) ∧
      (∀ msg x, b.Broadcast msg ≠ .panicked x) ∧
      (∀ key x, b.Cancel key ≠ .panicked x) ∧
      (∀ key, b.clients.lookup key = none → b.Cancel key = .returned b) ∧
      (∀ key, ∃ b1, b.Cancel key = .returned b1 ∧ b1.clients.lookup key = none ∧
        b1.Cancel key = .returned b1) :=
  ⟨{ chans := [{ buf := [1], closed := true }], clients := ∅ }, rfl,
    (bus_cancellation_safe cancelTwice).2 _ rfl⟩

/-- C9 (fan-out in publish order): in a state reached from `NewBroker` by a
sequential run of calls in which no registered channel is full, `Broadcast`
returns, leaves the client table as it was, appends the message once at the end
of every channel of the table and touches no other channel; and after any run
the channel registered under a token holds exactly the messages broadcast since
that registration, in publish order, whatever other tokens did. -/
theorem fan_out_in_order {T : Type} (ops : List (BusOp T)) (b : Broker T)
    (hreach : (NewBroker : Broker T).run ops = .returned b) :
    (∀ msg, (∀ key ch c, b.clients.lookup key = some ch → b.chans[ch]? = some c →
        c.buf.length < chanCap) →
      ∃ b1, b.Broadcast msg = .returned b1 ∧ b1.clients = b.clients ∧
        (∀ key ch, b.clients.lookup key = some ch →
          ∃ c, b.chans[ch]? = some c ∧
            b1.chans[ch]? = some { c with buf := c.buf ++ [msg] }) ∧
        (∀ ch, (∀ key, b.clients.lookup key ≠ some ch) → b1.chans[ch]? = b.chans[ch]?)) ∧
    (∀ key, inboxOf b key = inboxAfter key none ops) := by
  have hinv : BusInv b := ((busInv_run 0 ops (NewBroker : Broker T) busInv_new).2 b hreach).1
  constructor
  · intro msg hroom
    have hloop : ∃ chans1, broadcastLoop b.chans msg b.clients.entries = .returned chans1 := by
      apply broadcastLoop_open msg _ b.chans (busInv_ids_nodup b hinv)
      intro e he
      obtain ⟨k, ch⟩ := e
      have hk : b.clients.lookup k = some ch := AList.mem_lookup_iff.mpr he
      obtain ⟨c, hc, ho⟩ := hinv.1 k ch hk
      exact ⟨c, hc, ho, hroom k ch c hk hc⟩
    obtain ⟨chans1, hl⟩ := hloop
    have hb : b.Broadcast msg = .returned { b with chans := chans1 } := by
      simp [Broker.Broadcast, hl]
    obtain ⟨h1, h2, h3⟩ := broadcast_returned b _ msg hinv hb
    refine ⟨_, hb, h1, ?_, h3⟩
    intro key ch hk
    obtain ⟨c, hc, _⟩ := hinv.1 key ch hk
    exact ⟨c, hc, h2 key ch c hk hc⟩
  · intro key
    have := ((busInv_run key ops (NewBroker : Broker T) busInv_new).2 b hreach).2
    rw [this]
    rfl

/-- Witness of C9: two subscribers, the second registered after the first
message. -/
theorem fan_out_in_order_witness :
    ∃ b, (NewBroker : Broker Nat).run twoSubscribers = .returned b ∧
      inboxOf b 1 = some [10, 20, 30] ∧ inboxOf b 2 = some [20, 30] ∧
      (∀ msg, (∀ key ch c, b.clients.lookup key = some ch → b.chans[ch]? = some c →
          c.buf.length < chanCap) →
        ∃ b1, b.Broadcast msg = .returned b1 ∧ b1.clients = b.clients ∧
          (∀ key ch, b.clients.lookup key = some ch →
            ∃ c, b.chans[ch]? = some c ∧
              b1.chans[ch]? = some { c with buf := c.buf ++ [msg] }) ∧
          (∀ ch, (∀ key, b.clients.lookup key ≠ some ch) → b1.chans[ch]? = b.chans[ch]?)) ∧
      (∀ key, inboxOf b key = inboxAfter key none twoSubscribers) :=
  ⟨{ chans := [{ buf := [10, 20, 30], closed := false }, { buf := [20, 30], closed := false }],
     clients := AList.insert 2 1 (AList.insert 1 0 ∅) },
    rfl, by decide, by decide, fan_out_in_order twoSubscribers _ rfl⟩

/-! ## The store: the snapshot of `Entries` -/

/-- C10 (defensive snapshot) fails on the code: `Entries` returns the address of
the live map.  On the store with the one key `a` = 1, the map returned by
`Entries` reads `a` = 1; after `Set("a", 2)` on the store the same returned map
reads `a` = 2; and after a write of `a` = 7 into the returned map `Get("a")` on
the store returns 7. -/
theorem entries_is_live_map :
    (∀ s : Store, s.Entries = s.values) ∧
    (deref sampleStore.mem sampleStore.Entries).lookup "a" = some (.int 1) ∧
    (∃ s1, sampleStore.Set "a" (.int 2) = .returned s1 ∧
      (deref s1.mem sampleStore.Entries).lookup "a" = some (.int 2)) ∧
    sampleStore.Get "a" = .int 1 ∧
    Store.Get { sampleStore with
      mem := sampleStore.mem.set sampleStore.Entries
        ((deref sampleStore.mem sampleStore.Entries).insert "a" (.int 7)) } "a" = .int 7 := by
  refine ⟨fun _ => rfl, by decide, ⟨_, rfl, by decide⟩, by decide, by decide⟩

/-! ## Lemmas on mutations -/

theorem broadcastLoop_returned_room {T : Type} (msg : T)
    (l : List (Sigma (fun _ : RegistrationToken => Nat))) :
    ∀ chans chans1 : List (Chan T), (l.map (fun e => e.2)).Nodup →
      broadcastLoop chans msg l = .returned chans1 →
      ∀ e ∈ l, ∀ c, chans[e.2]? = some c → c.buf.length < chanCap := by
  induction l with
  | nil => intro _ _ _ _ e he; simp at he
  | cons e0 rest ih =>
    intro chans chans1 hnd h e he c hc
    rw [List.map_cons, List.nodup_cons] at hnd
    simp only [broadcastLoop] at h
    cases hs : chanSend chans e0.2 msg with
    | blocked => simp [hs] at h
    | panicked x => simp [hs] at h
    | returned chans2 =>
      simp only [hs] at h
      obtain ⟨c0, hc0, _, hroom0, rfl⟩ := chanSend_returned chans chans2 e0.2 msg hs
      by_cases hid : e.2 = e0.2
      · rw [hid, hc0] at hc
        simp only [Option.some.injEq] at hc
        rw [← hc]
        exact hroom0
      · have hrest : e ∈ rest := by
          rcases List.mem_cons.mp he with rfl | hr
          · exact absurd rfl hid
          · exact hr
        refine ih _ chans1 hnd.2 h e hrest c ?_
        rw [List.getElem?_set_ne (fun hx => hid hx.symm)]
        exact hc

theorem broadcast_room {T : Type} (b : Broker T) (msg : T) (h : BusInv b)
    (hroom : ∀ tok ch c, b.clients.lookup tok = some ch → b.chans[ch]? = some c →
      c.buf.length < chanCap) :
    ∃ b1, b.Broadcast msg = .returned b1 := by
  have hloop : ∃ chans1, broadcastLoop b.chans msg b.clients.entries = .returned chans1 := by
    apply broadcastLoop_open msg _ b.chans (busInv_ids_nodup b h)
    intro e he
    obtain ⟨k, ch⟩ := e
    have hk : b.clients.lookup k = some ch := AList.mem_lookup_iff.mpr he
    obtain ⟨c, hc, ho⟩ := h.1 k ch hk
    exact ⟨c, hc, ho, hroom k ch c hk hc⟩
  obtain ⟨chans1, hl⟩ := hloop
  exact ⟨{ b with chans := chans1 }, by simp [Broker.Broadcast, hl]⟩

theorem broadcast_full {T : Type} (b : Broker T) (msg : T) (h : BusInv b)
    (tok : RegistrationToken) (ch : Nat) (c : Chan T) (hk : b.clients.lookup tok = some ch)
    (hc : b.chans[ch]? = some c) (hfull : chanCap ≤ c.buf.length) :
    b.Broadcast msg = .blocked := by
  cases hb : b.Broadcast msg with
  | blocked => rfl
  | panicked x => exact absurd hb (broadcast_no_panic b x msg h)
  | returned b1 =>
    exfalso
    unfold Broker.Broadcast at hb
    cases hl : broadcastLoop b.chans msg b.clients.entries with
    | blocked => simp [hl] at hb
    | panicked x => simp [hl] at hb
    | returned chans1 =>
      have := broadcastLoop_returned_room msg _ b.chans chans1 (busInv_ids_nodup b h) hl
        ⟨tok, ch⟩ (AList.mem_lookup_iff.mp hk) c hc
      omega

theorem assign_valid (s : Store) (key : String) (value : Val) (hv : s.values < s.mem.length) :
    ∃ s1, s.assign key value = some s1 ∧ s1.broker = s.broker ∧ s1.values = s.values ∧
      s1.defaultValues = s.defaultValues ∧ s1.Get key = value ∧
      ∀ k, k ≠ key → s1.Get k = s.Get k := by
  have hm : s.mem[s.values]? = some s.mem[s.values] := List.getElem?_eq_getElem hv
  have hd : deref s.mem s.values = s.mem[s.values] := by
    simp [deref, List.getD_eq_getElem?_getD, hm]
  have hd1 : deref (s.mem.set s.values (s.mem[s.values].insert key value)) s.values
      = s.mem[s.values].insert key value := by
    simp [deref, List.getD_eq_getElem?_getD, List.getElem?_set_self hv]
  refine ⟨{ s with mem := s.mem.set s.values (s.mem[s.values].insert key value) },
    by simp only [Store.assign, hm], rfl, rfl, rfl, ?_, ?_⟩
  · simp only [Store.Get, Store.index, hd1, AList.lookup_insert, Option.getD_some]
  · intro k hk
    simp only [Store.Get, Store.index, hd1, hd, AList.lookup_insert_ne hk]

/-! ## Mutations and filtering: claims -/

/-- C11 (mutation postcondition): in a store whose `values` names a map and whose
broker was reached from `NewBroker` by a sequential run of calls, `Reduce` with a
reducer that always returns a value never panics; when no registered channel is
full it returns, and afterwards `Get(k)` is `fn` of the value `k` had before
(`fn(nil)` when `k` was unset), `Get` of every other key is unchanged, the
client table is unchanged, every registered channel has exactly the one event
`(k, fn(v))` appended and no other channel is touched; when a registered
channel is full the call blocks in the broadcast.  `Set(k, x)` is `Reduce` with
the constant reducer `x`. -/
theorem mutation_postcondition (s : Store) (ops : List (BusOp Event)) (key : String)
    (fn : Val → Val) (hv : s.values < s.mem.length)
    (hbus : (NewBroker : Broker Event).run ops = .returned s.broker) :
    (∀ x, s.Reduce key (fun v => some (fn v)) ≠ .panicked x) ∧
    ((∀ tok ch c, s.broker.clients.lookup tok = some ch → s.broker.chans[ch]? = some c →
        c.buf.length < chanCap) →
      ∃ s1, s.Reduce key (fun v => some (fn v)) = .returned s1 ∧
        s1.Get key = fn (s.Get key) ∧
        ((deref s.mem s.values).lookup key = none → s1.Get key = fn Val.nil) ∧
        (∀ k, k ≠ key → s1.Get k = s.Get k) ∧
        s1.values = s.values ∧ s1.defaultValues = s.defaultValues ∧
        s1.broker.clients = s.broker.clients ∧
        (∀ tok ch, s.broker.clients.lookup tok = some ch →
          ∃ c, s.broker.chans[ch]? = some c ∧
            s1.broker.chans[ch]?
              = some { c with buf := c.buf ++ [{ Key := key, Value := fn (s.Get key) }] }) ∧
        (∀ ch, (∀ tok, s.broker.clients.lookup tok ≠ some ch) →
          s1.broker.chans[ch]? = s.broker.chans[ch]?)) ∧
    ((∃ tok ch c, s.broker.clients.lookup tok = some ch ∧ s.broker.chans[ch]? = some c ∧
        chanCap ≤ c.buf.length) →
      s.Reduce key (fun v => some (fn v)) = .blocked) ∧
    (∀ x, s.Set key x = s.Reduce key (fun _ => some x)) := by
  have hinv : BusInv s.broker :=
    ((busInv_run 0 ops (NewBroker : Broker Event) busInv_new).2 s.broker hbus).1
  obtain ⟨s0, ha, hb0, hv0, hd0, hget, hother⟩ := assign_valid s key (fn (s.index key)) hv
  have hred : s.Reduce key (fun v => some (fn v))
      = s0.broadcast { Key := key, Value := fn (s.index key) } := by
    simp only [Store.Reduce, ha]
  have hinv0 : BusInv s0.broker := by rw [hb0]; exact hinv
  refine ⟨?_, ?_, ?_, ?_⟩
  · intro x hx
    rw [hred] at hx
    unfold Store.broadcast at hx
    cases hb : s0.broker.Broadcast { Key := key, Value := fn (s.index key) } with
    | blocked => simp [hb] at hx
    | returned b1 => simp [hb] at hx
    | panicked y => exact absurd hb (broadcast_no_panic s0.broker y _ hinv0)
  · intro hroom
    obtain ⟨b1, hb⟩ := broadcast_room s0.broker { Key := key, Value := fn (s.index key) } hinv0
      (by rw [hb0]; exact hroom)
    obtain ⟨h1, h2, h3⟩ := broadcast_returned s0.broker b1 _ hinv0 hb
    rw [hb0] at h1 h2 h3
    refine ⟨{ s0 with broker := b1 }, ?_, hget, ?_, hother, hv0, hd0, h1, ?_, h3⟩
    · rw [hred]
      simp only [Store.broadcast, hb]
    · intro hnone
      have : s.index key = Val.nil := by simp [Store.index, hnone]
      rw [← this]
      exact hget
    · intro tok ch hk
      obtain ⟨c, hc, _⟩ := hinv.1 tok ch hk
      exact ⟨c, hc, h2 tok ch c hk hc⟩
  · rintro ⟨tok, ch, c, hk, hc, hfull⟩
    rw [hred]
    have hb := broadcast_full s0.broker { Key := key, Value := fn (s.index key) } hinv0
      tok ch c (by rw [hb0]; exact hk) (by rw [hb0]; exact hc) hfull
    simp only [Store.broadcast, hb]
  · intro x
    rfl

/-- Witness of C11: the store with `a` = 1 and one subscriber; `Reduce` adds 4. -/
theorem mutation_postcondition_witness :
    ∃ s1, subscribedStore.Reduce "a" (fun v => some (addInt 4 v)) = .returned s1 ∧
      s1.Get "a" = addInt 4 (subscribedStore.Get "a") ∧
      ((deref subscribedStore.mem subscribedStore.values).lookup "a" = none →
        s1.Get "a" = addInt 4 Val.nil) ∧
      (∀ k, k ≠ "a" → s1.Get k = subscribedStore.Get k) ∧
      s1.values = subscribedStore.values ∧
      s1.defaultValues = subscribedStore.defaultValues ∧
      s1.broker.clients = subscribedStore.broker.clients ∧
      (∀ tok ch, subscribedStore.broker.clients.lookup tok = some ch →
        ∃ c, subscribedStore.broker.chans[ch]? = some c ∧
          s1.broker.chans[ch]?
            = some { c with
                buf := c.buf ++ [{ Key := "a", Value := addInt 4 (subscribedStore.Get "a") }] }) ∧
      (∀ ch, (∀ tok, subscribedStore.broker.clients.lookup tok ≠ some ch) →
        s1.broker.chans[ch]? = subscribedStore.broker.chans[ch]?) :=
  (mutation_postcondition subscribedStore [.register (some 7)] "a" (addInt 4)
    (by decide) rfl).2.1 (by
      intro tok ch c _ hc
      cases ch with
      | zero =>
        have : c = { buf := [], closed := false } := by
          have h0 : subscribedStore.broker.chans[0]? = some { buf := [], closed := false } := rfl
          rw [h0] at hc
          exact (Option.some.inj hc).symm
        rw [this]
        decide
      | succ n =>
        have h1 : subscribedStore.broker.chans[n + 1]? = none := rfl
        rw [h1] at hc
        exact Option.noConfusion hc)

/-- C12 (predicate filtering): for every predicate and every list of events
received from `in`, the goroutine of `Register` goes through all of them and
what it has sent on `out` is exactly the events whose key passes the predicate,
in the order received; `Select(prefix)` holds of a key exactly when the key is
the prefix followed by some rest, `All()` holds of every key; and under
`Select("bytes.")` no event with key `session.count` is ever sent. -/
theorem predicate_filtering :
    (∀ (p : Predicate) (es : List Event),
      ∃ f, Forward.run p Forward.start es = some f ∧
        f.out = es.filter (fun e => p e.Key) ∧ f.running = true ∧ f.outClosed = false) ∧
    (∀ pfx key : String, Select pfx key = true ↔ ∃ rest : String, key = pfx ++ rest) ∧
    (∀ key : String, All key = true) ∧
    Select "bytes." "session.count" = false ∧
    (∀ es : List Event, ∃ f, Forward.run (Select "bytes.") Forward.start es = some f ∧
      ∀ e ∈ f.out, e.Key ≠ "session.count") := by
  have hrun : ∀ (p : Predicate) (es : List Event) (s : Forward), s.running = true →
      Forward.run p s es
        = some { s with out := s.out ++ es.filter (fun e => p e.Key) } := by
    intro p es
    induction es with
    | nil => intro s _; simp [Forward.run]
    | cons e rest ih =>
      intro s hs
      by_cases hp : p e.Key = true
      · have hstep : s.step p (some e) = some { s with out := s.out ++ [e] } := by
          simp [Forward.step, hs, hp]
        simp only [Forward.run, hstep]
        rw [ih { s with out := s.out ++ [e] } hs]
        simp [List.filter_cons, hp]
      · have hstep : s.step p (some e) = some s := by
          simp [Forward.step, hs, hp]
        simp only [Forward.run, hstep]
        rw [ih s hs]
        simp [List.filter_cons, hp]
  have hsel : Select "bytes." "session.count" = false := by decide
  refine ⟨?_, ?_, fun _ => rfl, hsel, ?_⟩
  · intro p es
    exact ⟨_, hrun p es Forward.start rfl, by simp [Forward.start], rfl, rfl⟩
  · intro pfx key
    simp only [Select, List.isPrefixOf_iff_prefix]
    constructor
    · rintro ⟨t, ht⟩
      exact ⟨⟨t⟩, String.ext (by rw [String.data_append, ht])⟩
    · rintro ⟨rest, rfl⟩
      exact ⟨rest.data, by rw [String.data_append]⟩
  · intro es
    refine ⟨_, hrun (Select "bytes.") es Forward.start rfl, ?_⟩
    intro e he hk
    simp only [Forward.start, List.nil_append, List.mem_filter] at he
    rw [hk, hsel] at he
    exact Bool.noConfusion he.2

/-- Witness of C12: three events under `Select("bytes.")`; the two byte counters
are sent, in order, the session counter is not. -/
theorem predicate_filtering_witness :
    ∃ f, Forward.run (Select "bytes.") Forward.start mixedEvents = some f ∧
      f.out = mixedEvents.filter (fun e => Select "bytes." e.Key) ∧
      f.running = true ∧ f.outClosed = false :=
  predicate_filtering.1 (Select "bytes.") mixedEvents

end LoadMonitor
